import Mathlib

/-!
Verification of the lock-free MPMC queue in `queue.h` (template class
`lock_free_queue<T>`), a Michael-Scott style linked list with split
reference counting.

The embedding is a sequential shallow embedding: the heap is explicit
(a list of optional nodes, the index playing the role of a node
address, `none` meaning freed), and each operation is translated
statement by statement from the C++ source.  In a single-threaded
execution every compare-and-swap sees exactly the value loaded just
before, so each CAS loop runs its body once; the CAS comparisons are
kept in the model and checked, and a branch that would make the
sequential execution retry forever (a failed data-install CAS can only
recur forever without a concurrent thread) is modelled as `none`
("no final state").  Machine integers: the `node_counter` bit-fields
are 30-bit and 2-bit unsigned, so their updates are taken modulo
`2 ^ 30` and modulo `4`; the `external_count` of a `counted_node_ptr`
is a C `int`, modelled as `Int`.
-/

namespace LockFreeQueue

/-- Modulus of the 30-bit unsigned bit-field `internal_count` in
`node_counter`. -/
def UINT30 : Nat := 1073741824

/-- `struct node_counter`: the packed pair of unsigned bit-fields
`internal_count : 30` and `external_count : 2` (the latter counts the
dummy holders of the node). -/
structure NodeCounter where
  internal_count : Nat
  external_count : Nat
  deriving DecidableEq, Repr

/-- `struct counted_node_ptr`: an `int` external count paired with a
node pointer; the pointer is a heap address, `none` is `nullptr`. -/
structure CountedNodePtr where
  external_count : Int
  ptr : Option Nat
  deriving DecidableEq, Repr

/-- `struct node`: the data pointer (`none` is `nullptr`, otherwise the
owned value), the packed counter, and the `next` link. -/
structure Node (T : Type) where
  data : Option T
  count : NodeCounter
  next : CountedNodePtr
  deriving DecidableEq

/-- The heap: address `a` holds `heap[a]`; `some none` means the node at
`a` has been `delete`d, an index past the end was never allocated. -/
abbrev Heap (T : Type) := List (Option (Node T))

/-- Dereference a node address. -/
def hget (H : Heap T) (a : Nat) : Option (Node T) :=
  match H[a]? with
  | some x => x
  | none => none

/-- The queue state: the heap together with the two atomic slots
`head` and `tail`. -/
structure QueueState (T : Type) where
  heap : Heap T
  head : CountedNodePtr
  tail : CountedNodePtr

/-- The `node()` constructor: `internal_count = 0`, `external_count = 2`,
`next.ptr = nullptr`, `next.external_count = 0`, `data = nullptr`. -/
def node.init : Node T :=
  { data := none
    count := { internal_count := 0, external_count := 2 }
    next := { external_count := 0, ptr := none } }

/-- The `lock_free_queue()` constructor: one dummy node, and
`head = tail = (external_count 1, dummy)`. -/
def lock_free_queue.init : QueueState T :=
  { heap := [some node.init]
    head := { external_count := 1, ptr := some 0 }
    tail := { external_count := 1, ptr := some 0 } }

/-- `increase_external_count(counter, old_counter)`: the CAS loop that
bumps the slot's external count.  Sequentially the loop body runs once
and the CAS succeeds, because `old_counter` holds the value just loaded
from the slot.  Returns the new slot value and the updated
`old_counter` (whose `external_count` is set to the new value). -/
def increase_external_count (old_counter : CountedNodePtr) :
    CountedNodePtr × CountedNodePtr :=
  let new_counter : CountedNodePtr :=
    { external_count := old_counter.external_count + 1, ptr := old_counter.ptr }
  (new_counter, new_counter)

/-- `node::release_ref()` on the node at address `a`: decrement the
30-bit `internal_count` (modulo `2 ^ 30`), and `delete this` when both
the new `internal_count` and the new `external_count` are zero.
Returns `none` on a dangling address (a use after free, which the
sequential executions never produce). -/
def release_ref (H : Heap T) (a : Nat) : Option (Heap T) :=
  match hget H a with
  | none => none
  | some nd =>
    let new_counter : NodeCounter :=
      { internal_count := (nd.count.internal_count + (UINT30 - 1)) % UINT30
        external_count := nd.count.external_count }
    if new_counter.internal_count = 0 ∧ new_counter.external_count = 0 then
      some (H.set a none)
    else
      some (H.set a (some { nd with count := new_counter }))

/-- `free_external_counter(old_node_ptr)`: retire a head or tail slot.
`count_increase = old_node_ptr.external_count - 2` is added to the
node's 30-bit `internal_count` (modulo `2 ^ 30`), the 2-bit
`external_count` is decremented (modulo `4`), and the node is deleted
when both new fields are zero. -/
def free_external_counter (H : Heap T) (old_node_ptr : CountedNodePtr) :
    Option (Heap T) :=
  match old_node_ptr.ptr with
  | none => none
  | some a =>
    match hget H a with
    | none => none
    | some nd =>
      let count_increase : Int := old_node_ptr.external_count - 2
      let new_counter : NodeCounter :=
        { internal_count :=
            (((nd.count.internal_count : Int) + count_increase).emod (UINT30 : Int)).toNat
          external_count := (nd.count.external_count + 3) % 4 }
      if new_counter.internal_count = 0 ∧ new_counter.external_count = 0 then
        some (H.set a none)
      else
        some (H.set a (some { nd with count := new_counter }))

/-- `push(new_value)`, with the two heap allocations made explicit:
`alloc_data_ok` is the `new T(std::move(new_value))` for the value copy
and `alloc_node_ok` the `new node` for the successor dummy.  A failing
allocation throws, which is modelled as `Except.error` carrying the
state at the throw; both allocations happen before the first access to
shared state.  On success the code runs the claim / data-CAS / link /
exchange / retire sequence; `ok none` marks a run the sequential
semantics cannot finish (a failed data CAS would retry forever without
a concurrent producer, and a dangling pointer is a use after free). -/
def pushE (alloc_data_ok alloc_node_ok : Bool) (s : QueueState T) (v : T) :
    Except (QueueState T) (Option (QueueState T)) :=
  match alloc_data_ok with
  | false => .error s
  | true =>
  match alloc_node_ok with
  | false => .error s
  | true =>
  -- new_next.ptr = new node; new_next.external_count = 1;
  let new_next_addr := s.heap.length
  let heap1 := s.heap ++ [some node.init]
  let new_next : CountedNodePtr := { external_count := 1, ptr := some new_next_addr }
  -- counted_node_ptr old_tail = tail.load(); increase_external_count(tail, old_tail);
  let p := increase_external_count s.tail
  let tail1 := p.1
  let old_tail := p.2
  match old_tail.ptr with
  | none => .ok none
  | some a =>
    match hget heap1 a with
    | none => .ok none
    | some nd =>
      -- old_tail.ptr->data.compare_exchange_strong(old_data = nullptr, new_data.get())
      match nd.data with
      | some _ => .ok none
      | none =>
        -- old_tail.ptr->next = new_next; old_tail = tail.exchange(new_next);
        let heap2 := heap1.set a (some { nd with data := some v, next := new_next })
        -- free_external_counter(old_tail);
        match free_external_counter heap2 tail1 with
        | none => .ok none
        | some heap3 => .ok (some { heap := heap3, head := s.head, tail := new_next })

/-- `push` with both allocations succeeding. -/
def push (s : QueueState T) (v : T) : Option (QueueState T) :=
  match pushE true true s v with
  | .ok r => r
  | .error _ => none

/-- `pop()`: claim the head slot, compare the claimed node with
`tail.load().ptr` (empty: release the claim, return the null
`unique_ptr`), otherwise CAS `head` to the node's `next`, exchange the
node's `data` with `nullptr`, retire the old head slot and return the
exchanged pointer.  The outer `none` marks a run the sequential
semantics cannot finish. -/
def pop (s : QueueState T) : Option (Option T × QueueState T) :=
  -- counted_node_ptr old_head = head.load(); increase_external_count(head, old_head);
  let p := increase_external_count s.head
  let head1 := p.1
  let old_head := p.2
  match old_head.ptr with
  | none => none
  | some a =>
    -- if (ptr == tail.load().ptr)
    if old_head.ptr = s.tail.ptr then
      match release_ref s.heap a with
      | none => none
      | some heap2 => some (none, { heap := heap2, head := head1, tail := s.tail })
    else
      match hget s.heap a with
      | none => none
      | some nd =>
        -- head.compare_exchange_strong(old_head, ptr->next)
        if head1 = old_head then
          -- T* const res = ptr->data.exchange(nullptr);
          let heap2 := s.heap.set a (some { nd with data := none })
          match free_external_counter heap2 old_head with
          | none => none
          | some heap3 => some (nd.data, { heap := heap3, head := nd.next, tail := s.tail })
        else none

/-- Push a whole list of values, left to right. -/
def pushList (s : QueueState T) : List T → Option (QueueState T)
  | [] => some s
  | v :: vs =>
    match push s v with
    | none => none
    | some s' => pushList s' vs

/-- Pop `n` times, collecting the results in order. -/
def popSeq (s : QueueState T) : Nat → Option (List (Option T) × QueueState T)
  | 0 => some ([], s)
  | n + 1 =>
    match pop s with
    | none => none
    | some (r, s') =>
      match popSeq s' n with
      | none => none
      | some (rs, s'') => some (r :: rs, s'')

/-- The destructor's `while (pop()) ;` loop, with fuel: pop until a pop
returns the null pointer. -/
def drain (s : QueueState T) : Nat → Option (QueueState T)
  | 0 => none
  | fuel + 1 =>
    match pop s with
    | none => none
    | some (none, s') => some s'
    | some (some _, s') => drain s' fuel

/-- `~lock_free_queue()`: drain, then `delete head.load().ptr`. -/
def destruct (s : QueueState T) (fuel : Nat) : Option (Heap T) :=
  match drain s fuel with
  | none => none
  | some s' =>
    match s'.head.ptr with
    | none => none
    | some front => some (s'.heap.set front none)

/-- Number of live (allocated, not yet deleted) nodes in a heap. -/
def allocCount (H : Heap T) : Nat := (H.filter fun x => x.isSome).length

/-- The states reachable from construction by completed `push` and
`pop` operations. -/
inductive Reachable : QueueState T → Prop
  | init : Reachable lock_free_queue.init
  | push {s s' : QueueState T} {v : T} :
      Reachable s → push s v = some s' → Reachable s'
  | pop {s s' : QueueState T} {r : Option T} :
      Reachable s → pop s = some (r, s') → Reachable s'

/-! ## Heap lemmas -/

@[simp] theorem hget_nil (a : Nat) : hget ([] : Heap T) a = none := by
  simp [hget]

@[simp] theorem hget_cons_zero (x : Option (Node T)) (H : Heap T) :
    hget (x :: H) 0 = x := by
  simp [hget]

@[simp] theorem hget_cons_succ (x : Option (Node T)) (H : Heap T) (a : Nat) :
    hget (x :: H) (a + 1) = hget H a := by
  simp [hget]

theorem hget_lt {H : Heap T} {a : Nat} {nd : Node T}
    (h : hget H a = some nd) : a < H.length := by
  unfold hget at h
  cases h' : H[a]? with
  | none => rw [h'] at h; exact absurd h (by simp)
  | some x => exact (List.getElem?_eq_some.mp h').1

theorem hget_set_ne (H : Heap T) {a c : Nat} (x : Option (Node T)) (h : c ≠ a) :
    hget (H.set c x) a = hget H a := by
  unfold hget
  rw [List.getElem?_set_ne h]

theorem hget_set_self (H : Heap T) {c : Nat} (x : Option (Node T))
    (h : c < H.length) : hget (H.set c x) c = x := by
  unfold hget
  rw [List.getElem?_set_self h]

theorem hget_append_left (L : Heap T) {H : Heap T} {a : Nat} (h : a < H.length) :
    hget (H ++ L) a = hget H a := by
  unfold hget
  rw [List.getElem?_append_left h]

theorem hget_concat_length (H : Heap T) (x : Option (Node T)) :
    hget (H ++ [x]) H.length = x := by
  unfold hget
  rw [List.getElem?_concat_length]

/-! ## Allocation-count lemmas -/

theorem allocCount_cons (x : Option (Node T)) (H : Heap T) :
    allocCount (x :: H) = (if x.isSome then 1 else 0) + allocCount H := by
  cases x
  · simp [allocCount, List.filter]
  · simp [allocCount, List.filter]
    omega

theorem allocCount_append_one (H : Heap T) (nd : Node T) :
    allocCount (H ++ [some nd]) = allocCount H + 1 := by
  induction H with
  | nil => simp [allocCount]
  | cons x H ih => rw [List.cons_append, allocCount_cons, ih, allocCount_cons]; omega

theorem allocCount_set_some {H : Heap T} {a : Nat} {nd : Node T}
    (h : hget H a = some nd) (nd' : Node T) :
    allocCount (H.set a (some nd')) = allocCount H := by
  induction H generalizing a with
  | nil => simp at h
  | cons x H ih =>
    cases a with
    | zero =>
      simp only [hget_cons_zero] at h
      rw [h, List.set_cons_zero, allocCount_cons, allocCount_cons]
      simp
    | succ a =>
      simp only [hget_cons_succ] at h
      rw [List.set_cons_succ, allocCount_cons, allocCount_cons, ih h]

theorem allocCount_set_none {H : Heap T} {a : Nat} {nd : Node T}
    (h : hget H a = some nd) :
    allocCount (H.set a none) + 1 = allocCount H := by
  induction H generalizing a with
  | nil => simp at h
  | cons x H ih =>
    cases a with
    | zero =>
      simp only [hget_cons_zero] at h
      rw [h, List.set_cons_zero, allocCount_cons, allocCount_cons]
      simp; omega
    | succ a =>
      simp only [hget_cons_succ] at h
      rw [List.set_cons_succ, allocCount_cons, allocCount_cons, ← ih h]
      omega

/-! ## Counter arithmetic

`icnt hec` is the value of the 30-bit `internal_count` of the node the
head slot names, after the claims recorded in the head slot's
`external_count = hec` have each decremented it once: the node started
at `0` and `hec - 1` claims have been released into it. -/

theorem emod_eq_mod (a b : Int) : a.emod b = a % b := rfl

/-- The internal count of a head node whose slot external count is `e`. -/
def icnt (e : Int) : Nat := ((1 - e).emod (UINT30 : Int)).toNat

theorem icnt_lt (e : Int) : icnt e < UINT30 := by
  simp only [icnt, UINT30, Nat.cast_ofNat, emod_eq_mod]
  omega

theorem icnt_one : icnt 1 = 0 := by
  simp only [icnt, UINT30, Nat.cast_ofNat, emod_eq_mod]
  omega

/-- Retiring the head slot (external count `e + 1` after the pop's own
claim) returns the node's internal count to exactly zero. -/
theorem icnt_retire (e : Int) :
    (((icnt e : Int)) + ((e + 1) - 2)).emod (UINT30 : Int) = 0 := by
  simp only [icnt, UINT30, Nat.cast_ofNat, emod_eq_mod]
  omega

/-- An empty pop's `release_ref` turns the head-node internal count for
slot count `e` into the one for slot count `e + 1`. -/
theorem icnt_release (e : Int) :
    (icnt e + (UINT30 - 1)) % UINT30 = icnt (e + 1) := by
  simp only [icnt, UINT30, Nat.cast_ofNat, emod_eq_mod]
  omega

theorem emod_toNat_self {n : Nat} (h : n < UINT30) :
    (((n : Int)).emod (UINT30 : Int)).toNat = n := by
  simp only [UINT30, Nat.cast_ofNat, emod_eq_mod] at h ⊢
  omega

/-! ## The list-segment abstraction -/

/-- `Seg H t b addrs vals`: starting at address `b`, the heap `H` holds
a chain of fully linked real nodes with addresses `addrs` and payloads
`vals`, ending at the tail node `t` (exclusive).  Each chain node has
been published (data installed, `next` written with external count 1)
and retired from the tail slot once (`internal_count = 0`,
`external_count = 1` holders). -/
inductive Seg (H : Heap T) (t : Nat) : Nat → List Nat → List T → Prop
  | nil : Seg H t t [] []
  | cons {a b : Nat} {v : T} {addrs : List Nat} {vals : List T} (nd : Node T)
      (ha : hget H a = some nd) (hdata : nd.data = some v)
      (hnext : nd.next = { external_count := 1, ptr := some b })
      (hcount : nd.count = { internal_count := 0, external_count := 1 })
      (hrest : Seg H t b addrs vals) : Seg H t a (a :: addrs) (v :: vals)

theorem Seg.mem_alloc {H : Heap T} {t b : Nat} {addrs : List Nat} {vals : List T}
    (hs : Seg H t b addrs vals) : ∀ a ∈ addrs, ∃ nd, hget H a = some nd := by
  induction hs with
  | nil => intro a ha; simp at ha
  | cons nd ha hdata hnext hcount hrest ih =>
    intro c hc
    rcases List.mem_cons.mp hc with rfl | hc
    · exact ⟨nd, ha⟩
    · exact ih c hc

theorem Seg.frame {H H' : Heap T} {t b : Nat} {addrs : List Nat} {vals : List T}
    (hagree : ∀ a ∈ addrs, hget H' a = hget H a)
    (hs : Seg H t b addrs vals) : Seg H' t b addrs vals := by
  induction hs with
  | nil => exact Seg.nil
  | cons nd ha hdata hnext hcount hrest ih =>
    refine Seg.cons nd ?_ hdata hnext hcount (ih fun a h => hagree a (by simp [h]))
    rw [hagree _ (by simp), ha]

theorem Seg.snoc {H : Heap T} {t t' b : Nat} {addrs : List Nat} {vals : List T}
    (hs : Seg H t b addrs vals) (nd : Node T) (v : T)
    (ht : hget H t = some nd) (hdata : nd.data = some v)
    (hnext : nd.next = { external_count := 1, ptr := some t' })
    (hcount : nd.count = { internal_count := 0, external_count := 1 }) :
    Seg H t' b (addrs ++ [t]) (vals ++ [v]) := by
  induction hs with
  | nil => exact Seg.cons nd ht hdata hnext hcount Seg.nil
  | cons nd₀ ha hdata₀ hnext₀ hcount₀ hrest ih =>
    exact Seg.cons nd₀ ha hdata₀ hnext₀ hcount₀ ih

theorem Seg.length_eq {H : Heap T} {t b : Nat} {addrs : List Nat} {vals : List T}
    (hs : Seg H t b addrs vals) : addrs.length = vals.length := by
  induction hs with
  | nil => rfl
  | cons _ _ _ _ _ _ ih => simp [ih]

/-! ## The queue invariant -/

/-- The shape of the front of the queue: either empty (head and tail
name the same node) or the head names the first real node, whose
internal count reflects the claims recorded in the head slot. -/
def Front (H : Heap T) (hec : Int) (h t : Nat) (addrs : List Nat)
    (vals : List T) : Prop :=
  (h = t ∧ addrs = [] ∧ vals = []) ∨
  (∃ b nd raddrs rest v, addrs = h :: raddrs ∧ vals = v :: rest ∧
    hget H h = some nd ∧ nd.data = some v ∧
    nd.next = { external_count := 1, ptr := some b } ∧
    nd.count = { internal_count := icnt hec, external_count := 1 } ∧
    Seg H t b raddrs rest)

/-- The sequential queue invariant: the state `s` represents the queue
holding exactly the values `vals`, front first.  The witnesses are the
head slot's external count `hec`, the head and tail addresses `h` and
`t`, the chain addresses `addrs` (head inclusive, tail exclusive), and
`ndt`, the tail's dummy node. -/
def Inv (s : QueueState T) (vals : List T) : Prop :=
  ∃ (hec : Int) (h t : Nat) (addrs : List Nat) (ndt : Node T),
    s.head = { external_count := hec, ptr := some h } ∧
    s.tail = { external_count := 1, ptr := some t } ∧
    1 ≤ hec ∧
    hget s.heap t = some ndt ∧
    ndt.data = none ∧
    ndt.next = { external_count := 0, ptr := none } ∧
    ndt.count =
      { internal_count := if h = t then icnt hec else 0, external_count := 2 } ∧
    (addrs ++ [t]).Nodup ∧
    Front s.heap hec h t addrs vals

theorem front_mem {H : Heap T} {hec : Int} {h t : Nat} {addrs : List Nat}
    {vals : List T} (hf : Front H hec h t addrs vals) :
    ∀ a ∈ addrs, ∃ nd, hget H a = some nd := by
  rcases hf with ⟨_, rfl, _⟩ | ⟨b, nd, raddrs, rest, v, rfl, _, hh, _, _, _, hseg⟩
  · intro a ha; simp at ha
  · intro a ha
    rcases List.mem_cons.mp ha with rfl | ha
    · exact ⟨nd, hh⟩
    · exact hseg.mem_alloc a ha

theorem inv_init : Inv (lock_free_queue.init : QueueState T) [] := by
  refine ⟨1, 0, 0, [], node.init, rfl, rfl, le_refl 1, ?_, rfl, rfl, ?_, ?_,
    Or.inl ⟨rfl, rfl, rfl⟩⟩
  · simp [lock_free_queue.init]
  · simp [node.init, icnt_one]
  · simp

/-! ## Preservation of the invariant -/

/-- A pop on an empty queue returns the null pointer and re-establishes
the invariant; the only changes are the head slot's external count and
the dummy's internal count, and no node is freed or allocated. -/
theorem inv_pop_nil {T : Type} {s : QueueState T} (hinv : Inv s []) :
    ∃ s', pop s = some (none, s') ∧ Inv s' [] ∧
      s'.heap.length = s.heap.length ∧ allocCount s'.heap = allocCount s.heap ∧
      s'.tail = s.tail ∧ s'.head.ptr = s.head.ptr ∧
      ∀ a, (hget s'.heap a).map Node.data = (hget s.heap a).map Node.data ∧
        (hget s'.heap a).map Node.next = (hget s.heap a).map Node.next := by
  obtain ⟨hec, h, t, addrs, ndt, head_eq, tail_eq, hec_one, t_mem, t_data, t_next,
    t_count, nodup, front⟩ := hinv
  have hht : h = t ∧ addrs = [] := by
    rcases front with ⟨h1, h2, _⟩ | ⟨b, nd, raddrs, rest, v, _, hv, _⟩
    · exact ⟨h1, h2⟩
    · cases hv
  obtain ⟨rfl, rfl⟩ := hht
  obtain ⟨heap, hd, tl⟩ := s
  simp only at head_eq tail_eq t_mem front ⊢
  subst head_eq tail_eq
  have ht_lt : h < heap.length := hget_lt t_mem
  rw [if_pos rfl] at t_count
  refine ⟨⟨heap.set h (some { ndt with count :=
      { internal_count := icnt (hec + 1), external_count := 2 } }),
      { external_count := hec + 1, ptr := some h },
      { external_count := 1, ptr := some h }⟩, ?_, ?_, ?_, ?_, rfl, rfl, ?_⟩
  · simp only [pop, increase_external_count, if_true, release_ref, t_mem, t_count,
      icnt_release]
    rw [if_neg (by simp)]
  · refine ⟨hec + 1, h, h, [], { ndt with count :=
      { internal_count := icnt (hec + 1), external_count := 2 } },
      rfl, rfl, by omega, ?_, t_data, t_next, ?_, by simp, Or.inl ⟨rfl, rfl, rfl⟩⟩
    · rw [hget_set_self _ _ ht_lt]
    · simp
  · simp
  · exact allocCount_set_some t_mem _
  · intro a
    by_cases hat : h = a
    · subst hat
      rw [hget_set_self _ _ ht_lt, t_mem]
      exact ⟨rfl, rfl⟩
    · rw [hget_set_ne _ _ hat]
      exact ⟨rfl, rfl⟩

/-- A fresh head slot (external count 1) in front of a plain segment is
a valid queue front. -/
theorem front_of_seg {H : Heap T} {t b : Nat} {addrs : List Nat} {vals : List T}
    (hs : Seg H t b addrs vals) : Front H 1 b t addrs vals := by
  cases hs with
  | nil => exact Or.inl ⟨rfl, rfl, rfl⟩
  | cons nd ha hdata hnext hcount hrest =>
    exact Or.inr ⟨_, nd, _, _, _, rfl, rfl, ha, hdata, hnext,
      by rw [hcount, icnt_one], hrest⟩

/-- A pop on a non-empty queue returns the front value, frees exactly
the old head node, and re-establishes the invariant on the remaining
values. -/
theorem inv_pop_cons {T : Type} {s : QueueState T} {v : T} {vals : List T}
    (hinv : Inv s (v :: vals)) :
    ∃ s', pop s = some (some v, s') ∧ Inv s' vals ∧
      s'.heap.length = s.heap.length ∧ allocCount s'.heap + 1 = allocCount s.heap := by
  obtain ⟨hec, h, t, addrs, ndt, head_eq, tail_eq, hec_one, t_mem, t_data, t_next,
    t_count, nodup, front⟩ := hinv
  rcases front with ⟨_, _, hv⟩ | ⟨b, nd, raddrs, rest, v₀, haddrs, hvals, h_mem,
    h_data, h_next, h_count, hseg⟩
  · cases hv
  obtain ⟨rfl, rfl⟩ : v₀ = v ∧ rest = vals := by
    injection hvals with e1 e2; exact ⟨e1.symm, e2.symm⟩
  subst haddrs
  obtain ⟨nddata, ndcount, ndnext⟩ := nd
  simp only at h_data h_next h_count h_mem
  subst h_data h_next h_count
  rw [List.cons_append, List.nodup_cons] at nodup
  obtain ⟨h_notin, nodup'⟩ := nodup
  have hne : ¬ h = t := fun e => h_notin (e ▸ List.mem_append_right _ (by simp))
  obtain ⟨heap, hd, tl⟩ := s
  simp only at head_eq tail_eq t_mem h_mem hseg ⊢
  subst head_eq tail_eq
  have hlt : h < heap.length := hget_lt h_mem
  have hh2 : hget (heap.set h (some ⟨none, ⟨icnt hec, 1⟩, ⟨1, some b⟩⟩)) h
      = some ⟨none, ⟨icnt hec, 1⟩, ⟨1, some b⟩⟩ := hget_set_self _ _ hlt
  have hfree : ∀ a, a ≠ h →
      hget ((heap.set h (some ⟨none, ⟨icnt hec, 1⟩, ⟨1, some b⟩⟩)).set h none) a
      = hget heap a := by
    intro a ha
    rw [hget_set_ne _ _ (fun e => ha e.symm), hget_set_ne _ _ (fun e => ha e.symm)]
  refine ⟨⟨(heap.set h (some ⟨none, ⟨icnt hec, 1⟩, ⟨1, some b⟩⟩)).set h none,
      ⟨1, some b⟩, ⟨1, some t⟩⟩, ?_, ?_, ?_, ?_⟩
  · simp only [pop, increase_external_count, Option.some.injEq]
    rw [if_neg hne]
    simp only [h_mem, if_true, free_external_counter, hh2, icnt_retire, Int.toNat_zero]
    rw [if_pos ⟨trivial, trivial⟩]
  · refine ⟨1, b, t, raddrs, ndt, rfl, rfl, le_refl 1, ?_, t_data, t_next, ?_, nodup', ?_⟩
    · rw [hfree t (fun e => hne e.symm), t_mem]
    · rw [t_count, if_neg hne]
      by_cases hbt : b = t <;> simp [hbt, icnt_one]
    · refine front_of_seg (hseg.frame ?_)
      intro a ha
      exact hfree a (fun e => h_notin (e ▸ List.mem_append_left _ ha))
  · simp
  · rw [allocCount_set_none hh2, allocCount_set_some h_mem]

/-- A push always succeeds on a state satisfying the invariant: it
installs the value in the tail dummy, appends a fresh dummy, frees
nothing, and re-establishes the invariant with the value at the back. -/
theorem inv_push {T : Type} {s : QueueState T} {vals : List T} (hinv : Inv s vals)
    (v : T) :
    ∃ s', push s v = some s' ∧ Inv s' (vals ++ [v]) ∧
      s'.heap.length = s.heap.length + 1 ∧
      allocCount s'.heap = allocCount s.heap + 1 := by
  obtain ⟨hec, h, t, addrs, ndt, head_eq, tail_eq, hec_one, t_mem, t_data, t_next,
    t_count, nodup, front⟩ := hinv
  have sh12 : ((1 : Int) + 1 - 2) = 0 := by decide
  rcases front with ⟨hht, haddrs, hvals⟩ | ⟨b, nd, raddrs, rest, v₀, haddrs, hvals,
    h_memv, h_data, h_next, h_count, hseg⟩
  · -- empty queue: head and tail name the same dummy
    subst hht haddrs hvals
    rw [if_pos rfl] at t_count
    obtain ⟨ntdata, ntcount, ntnext⟩ := ndt
    simp only at t_data t_next t_count t_mem
    subst t_data t_next t_count
    obtain ⟨heap, hd, tl⟩ := s
    simp only at head_eq tail_eq t_mem ⊢
    subst head_eq tail_eq
    have ht_lt : h < heap.length := hget_lt t_mem
    have hfresh : h ≠ heap.length := Nat.ne_of_lt ht_lt
    have t_mem1 : hget (heap ++ [some node.init]) h
        = some ⟨none, ⟨icnt hec, 2⟩, ⟨0, none⟩⟩ := by
      rw [hget_append_left _ ht_lt]; exact t_mem
    have hlt1 : h < (heap ++ [some node.init]).length := by simp; omega
    have t_mem2 : hget ((heap ++ [some node.init]).set h
          (some ⟨some v, ⟨icnt hec, 2⟩, ⟨1, some heap.length⟩⟩)) h
        = some ⟨some v, ⟨icnt hec, 2⟩, ⟨1, some heap.length⟩⟩ :=
      hget_set_self _ _ hlt1
    have hI0 : ((((icnt hec : Nat) : Int)).emod ((UINT30 : Nat) : Int)).toNat
        = icnt hec := emod_toNat_self (icnt_lt hec)
    refine ⟨⟨((heap ++ [some node.init]).set h
        (some ⟨some v, ⟨icnt hec, 2⟩, ⟨1, some heap.length⟩⟩)).set h
        (some ⟨some v, ⟨icnt hec, 1⟩, ⟨1, some heap.length⟩⟩),
        ⟨hec, some h⟩, ⟨1, some heap.length⟩⟩, ?_, ?_, ?_, ?_⟩
    · have e23 : (2 + 3) % 4 = 1 := rfl
      simp only [push, pushE, increase_external_count, t_mem1, free_external_counter,
        t_mem2, sh12, add_zero, hI0, e23]
      rw [if_neg (by simp)]
    · refine ⟨hec, h, heap.length, [h], node.init, rfl, rfl, hec_one, ?_, rfl, rfl,
        ?_, by simp [hfresh], ?_⟩
      · rw [hget_set_ne _ _ hfresh, hget_set_ne _ _ hfresh, hget_concat_length]
      · rw [if_neg hfresh]; rfl
      · refine Or.inr ⟨heap.length, ⟨some v, ⟨icnt hec, 1⟩, ⟨1, some heap.length⟩⟩,
          [], [], v, rfl, rfl, ?_, rfl, rfl, rfl, Seg.nil⟩
        exact hget_set_self _ _ (by simp; omega)
    · simp
    · rw [allocCount_set_some t_mem2, allocCount_set_some t_mem1,
        allocCount_append_one]
  · -- non-empty queue: the tail dummy is distinct from the head node
    subst haddrs hvals
    obtain ⟨nd1, nd2, disj⟩ := List.nodup_append.mp nodup
    have hne_ht : ¬ h = t := fun e => by
      have := disj (List.mem_cons_self h raddrs); simp [e] at this
    rw [if_neg hne_ht] at t_count
    obtain ⟨ntdata, ntcount, ntnext⟩ := ndt
    simp only at t_data t_next t_count t_mem
    subst t_data t_next t_count
    obtain ⟨heap, hd, tl⟩ := s
    simp only at head_eq tail_eq t_mem h_memv hseg ⊢
    subst head_eq tail_eq
    have ht_lt : t < heap.length := hget_lt t_mem
    have htfresh : t ≠ heap.length := Nat.ne_of_lt ht_lt
    have hh_lt : h < heap.length := hget_lt h_memv
    have hhfresh : h ≠ heap.length := Nat.ne_of_lt hh_lt
    have t_mem1 : hget (heap ++ [some node.init]) t
        = some ⟨none, ⟨0, 2⟩, ⟨0, none⟩⟩ := by
      rw [hget_append_left _ ht_lt]; exact t_mem
    have hlt1 : t < (heap ++ [some node.init]).length := by simp; omega
    have t_mem2 : hget ((heap ++ [some node.init]).set t
          (some ⟨some v, ⟨0, 2⟩, ⟨1, some heap.length⟩⟩)) t
        = some ⟨some v, ⟨0, 2⟩, ⟨1, some heap.length⟩⟩ :=
      hget_set_self _ _ hlt1
    have hI0 : ((((0 : Nat) : Int)).emod ((UINT30 : Nat) : Int)).toNat = 0 := by
      decide
    have hframe : ∀ a, a ≠ t → a < heap.length →
        hget (((heap ++ [some node.init]).set t
          (some ⟨some v, ⟨0, 2⟩, ⟨1, some heap.length⟩⟩)).set t
          (some ⟨some v, ⟨0, 1⟩, ⟨1, some heap.length⟩⟩)) a = hget heap a := by
      intro a hat halt
      rw [hget_set_ne _ _ (fun e => hat e.symm), hget_set_ne _ _ (fun e => hat e.symm),
        hget_append_left _ halt]
    refine ⟨⟨((heap ++ [some node.init]).set t
        (some ⟨some v, ⟨0, 2⟩, ⟨1, some heap.length⟩⟩)).set t
        (some ⟨some v, ⟨0, 1⟩, ⟨1, some heap.length⟩⟩),
        ⟨hec, some h⟩, ⟨1, some heap.length⟩⟩, ?_, ?_, ?_, ?_⟩
    · have e23 : (2 + 3) % 4 = 1 := rfl
      simp only [push, pushE, increase_external_count, t_mem1, free_external_counter,
        t_mem2, sh12, add_zero, hI0, e23]
      rw [if_neg (by simp)]
    · have hlt_all : ∀ a ∈ (h :: raddrs) ++ [t], a < heap.length := by
        intro a ha
        rcases List.mem_append.mp ha with ha | ha
        · rcases List.mem_cons.mp ha with rfl | ha
          · exact hh_lt
          · obtain ⟨nda, hnda⟩ := hseg.mem_alloc a ha
            exact hget_lt hnda
        · simp at ha; subst ha; exact ht_lt
      refine ⟨hec, h, heap.length, (h :: raddrs) ++ [t], node.init, rfl, rfl,
        hec_one, ?_, rfl, rfl, ?_, ?_, ?_⟩
      · rw [hget_set_ne _ _ htfresh, hget_set_ne _ _ htfresh, hget_concat_length]
      · rw [if_neg hhfresh]; rfl
      · refine List.nodup_append.mpr ⟨nodup, by simp, ?_⟩
        intro a ha ha'
        simp at ha'
        have := hlt_all a ha
        omega
      · refine Or.inr ⟨b, nd, raddrs ++ [t], rest ++ [v], v₀, rfl, rfl, ?_, h_data,
          h_next, h_count, ?_⟩
        · rw [hframe h (fun e => hne_ht e) hh_lt]; exact h_memv
        · have hseg3 : Seg (((heap ++ [some node.init]).set t
              (some ⟨some v, ⟨0, 2⟩, ⟨1, some heap.length⟩⟩)).set t
              (some ⟨some v, ⟨0, 1⟩, ⟨1, some heap.length⟩⟩)) t b raddrs rest := by
            refine hseg.frame ?_
            intro a ha
            refine hframe a (fun e => ?_) (hlt_all a (by simp [ha]))
            have := disj (by simp [ha] : a ∈ h :: raddrs)
            simp [e] at this
          exact hseg3.snoc _ v (hget_set_self _ _ (by simp; omega)) rfl rfl rfl
    · simp
    · rw [allocCount_set_some t_mem2, allocCount_set_some t_mem1,
        allocCount_append_one]

/-- Every reachable state satisfies the invariant for some contents. -/
theorem reachable_inv {T : Type} {s : QueueState T} (hr : Reachable s) :
    ∃ vals, Inv s vals := by
  induction hr with
  | init => exact ⟨[], inv_init⟩
  | push hr hp ih =>
    obtain ⟨vals, hinv⟩ := ih
    obtain ⟨s'', hp', hinv', _, _⟩ := inv_push hinv _
    rw [hp] at hp'
    obtain rfl := Option.some.inj hp'
    exact ⟨_, hinv'⟩
  | pop hr hp ih =>
    obtain ⟨vals, hinv⟩ := ih
    cases vals with
    | nil =>
      obtain ⟨s'', hp', hinv', _, _, _, _, _⟩ := inv_pop_nil hinv
      rw [hp] at hp'
      simp only [Option.some.injEq, Prod.mk.injEq] at hp'
      obtain ⟨-, rfl⟩ := hp'
      exact ⟨[], hinv'⟩
    | cons v vs =>
      obtain ⟨s'', hp', hinv', _, _⟩ := inv_pop_cons hinv
      rw [hp] at hp'
      simp only [Option.some.injEq, Prod.mk.injEq] at hp'
      obtain ⟨-, rfl⟩ := hp'
      exact ⟨vs, hinv'⟩

/-- Pushing a list of values extends the queue contents at the back. -/
theorem inv_pushList {T : Type} {s : QueueState T} {vals : List T}
    (hinv : Inv s vals) (vs : List T) :
    ∃ s', pushList s vs = some s' ∧ Inv s' (vals ++ vs) := by
  induction vs generalizing s vals with
  | nil => exact ⟨s, rfl, by simpa using hinv⟩
  | cons v vs ih =>
    obtain ⟨s1, hp, hinv1, _, _⟩ := inv_push hinv v
    obtain ⟨s', hps, hinv'⟩ := ih hinv1
    refine ⟨s', by simp [pushList, hp, hps], by simpa using hinv'⟩

theorem popSeq_succ (s : QueueState T) (n : Nat) :
    popSeq s (n + 1) =
      match pop s with
      | none => none
      | some (r, s') =>
        match popSeq s' n with
        | none => none
        | some (rs, s'') => some (r :: rs, s'') := rfl

theorem drain_succ (s : QueueState T) (n : Nat) :
    drain s (n + 1) =
      match pop s with
      | none => none
      | some (none, s') => some s'
      | some (some _, s') => drain s' n := rfl

/-- Popping `n + 1` times on a queue holding `n` values returns exactly
those values in order followed by one empty result. -/
theorem inv_popSeq_drain {T : Type} {s : QueueState T} {vals : List T}
    (hinv : Inv s vals) :
    ∃ s', popSeq s (vals.length + 1) = some (vals.map some ++ [none], s') ∧
      Inv s' [] := by
  induction vals generalizing s with
  | nil =>
    obtain ⟨s', hp, hinv', _, _, _, _, _⟩ := inv_pop_nil hinv
    refine ⟨s', ?_, hinv'⟩
    rw [popSeq_succ, hp]
    rfl
  | cons v vs ih =>
    obtain ⟨s1, hp, hinv1, _, _⟩ := inv_pop_cons hinv
    obtain ⟨s', hps, hinv'⟩ := ih hinv1
    refine ⟨s', ?_, hinv'⟩
    rw [List.length_cons, popSeq_succ, hp]
    show (match popSeq s1 (vs.length + 1) with
          | none => none
          | some (rs, s'') => some (some v :: rs, s'')) = _
    rw [hps]
    rfl

/-- The destructor's drain loop: `n + 1` iterations of `pop` empty a
queue of `n` values, freeing exactly `n` nodes. -/
theorem inv_drain {T : Type} {s : QueueState T} {vals : List T}
    (hinv : Inv s vals) :
    ∃ s', drain s (vals.length + 1) = some s' ∧ Inv s' [] ∧
      allocCount s'.heap + vals.length = allocCount s.heap := by
  induction vals generalizing s with
  | nil =>
    obtain ⟨s', hp, hinv', _, hcnt, _, _, _⟩ := inv_pop_nil hinv
    refine ⟨s', ?_, hinv', by simp [hcnt]⟩
    rw [drain_succ, hp]
  | cons v vs ih =>
    obtain ⟨s1, hp, hinv1, _, hcnt⟩ := inv_pop_cons hinv
    obtain ⟨s', hd, hinv', hcnt'⟩ := ih hinv1
    refine ⟨s', ?_, hinv', ?_⟩
    · rw [List.length_cons, drain_succ, hp]
      exact hd
    · simp only [List.length_cons]
      omega

/-! ## The claims -/

/-- C1.  Sequential FIFO: for every finite sequence of values pushed by
a single thread with a single consumer, the sequence of non-empty pop
results equals the sequence of pushed values in push order: pushing
`vs` on a fresh queue and then popping `vs.length + 1` times yields
exactly the pushed values in order, followed by one empty result. -/
theorem C1_sequential_fifo (T : Type) (vs : List T) :
    ∃ s₁ s₂, pushList (lock_free_queue.init : QueueState T) vs = some s₁ ∧
      popSeq s₁ (vs.length + 1) = some (vs.map some ++ [none], s₂) := by
  obtain ⟨s₁, hp, hinv1⟩ := inv_pushList inv_init vs
  obtain ⟨s₂, hq, _⟩ := inv_popSeq_drain (show Inv s₁ vs from by simpa using hinv1)
  exact ⟨s₁, s₂, hp, hq⟩

/-- C2.  Slot-replacement reclamation rule: retiring a head or tail
slot via `free_external_counter` adds the slot's external count minus 2
to the node's internal count, decrements the node's external holders
count by exactly 1, and frees the node exactly when the resulting
internal count and holders count are both zero.  The hypotheses give
the exact (non-wrapping) values `i'` and `e'` of the updated fields. -/
theorem C2_slot_retirement {T : Type} {H : Heap T} {a : Nat} {nd : Node T}
    {ec : Int} (i' e' : Nat)
    (hmem : hget H a = some nd)
    (hi' : (i' : Int) = (nd.count.internal_count : Int) + (ec - 2))
    (he' : e' + 1 = nd.count.external_count)
    (hiw : i' < UINT30) (hew : nd.count.external_count < 4) :
    free_external_counter H ⟨ec, some a⟩ =
      some (if i' = 0 ∧ e' = 0 then H.set a none
            else H.set a (some { nd with count := ⟨i', e'⟩ })) := by
  have h1 : (((nd.count.internal_count : Int) + (ec - 2)).emod
      ((UINT30 : Nat) : Int)).toNat = i' := by
    rw [← hi']
    exact emod_toNat_self hiw
  have h2 : (nd.count.external_count + 3) % 4 = e' := by omega
  simp only [free_external_counter, hmem, h1, h2]
  by_cases hc : i' = 0 ∧ e' = 0
  · rw [if_pos hc, if_pos hc]
  · rw [if_neg hc, if_neg hc]

/-- Witness for C2: a node with internal count 5 and 2 holders, retired
from a slot with external count 3, ends with internal count 6 and 1
holder and is not freed. -/
theorem C2_witness :
    free_external_counter [some (⟨none, ⟨5, 2⟩, ⟨0, none⟩⟩ : Node Nat)]
        ⟨3, some 0⟩
      = some [some ⟨none, ⟨6, 1⟩, ⟨0, none⟩⟩] :=
  C2_slot_retirement 6 1
    (show hget [some (⟨none, ⟨5, 2⟩, ⟨0, none⟩⟩ : Node Nat)] 0
      = some ⟨none, ⟨5, 2⟩, ⟨0, none⟩⟩ from rfl)
    (by decide) rfl (by decide) (by decide)

/-- C3 counterexample: the claim says the releasing step of a failed
push CAS "frees the node if the internal count reaches zero", but
`release_ref` on a node with internal count 1 and 1 external holder
drives the internal count to zero and does NOT free the node (the code
additionally requires the external holders count to be zero). -/
theorem C3_counterexample :
    ∃ H', release_ref [some (⟨none, ⟨1, 1⟩, ⟨0, none⟩⟩ : Node Nat)] 0 = some H' ∧
      hget H' 0 = some ⟨none, ⟨0, 1⟩, ⟨0, none⟩⟩ ∧ ¬ hget H' 0 = none :=
  ⟨_, rfl, rfl, by decide⟩

/-- C3 (amended).  Failed-claim release in push: the releasing step
(`release_ref`) decrements the claimed node's internal count by one and
frees the node exactly when the resulting internal count reaches zero
AND the node's external holders count is also zero. -/
theorem C3_failed_claim_release {T : Type} {H : Heap T} {a : Nat} {nd : Node T}
    (i' : Nat) (hmem : hget H a = some nd)
    (hi : nd.count.internal_count = i' + 1)
    (hiw : nd.count.internal_count < UINT30) :
    release_ref H a =
      some (if i' = 0 ∧ nd.count.external_count = 0 then H.set a none
            else H.set a (some { nd with count :=
              ⟨i', nd.count.external_count⟩ })) := by
  have h1 : (nd.count.internal_count + (UINT30 - 1)) % UINT30 = i' := by
    rw [hi] at hiw ⊢
    simp only [UINT30] at hiw ⊢
    omega
  simp only [release_ref, hmem, h1]
  by_cases hc : i' = 0 ∧ nd.count.external_count = 0
  · rw [if_pos hc, if_pos hc]
  · rw [if_neg hc, if_neg hc]

/-- Witness for the amended C3: internal count 2 with 1 holder becomes
internal count 1, no free. -/
theorem C3_witness :
    release_ref [some (⟨none, ⟨2, 1⟩, ⟨0, none⟩⟩ : Node Nat)] 0
      = some [some ⟨none, ⟨1, 1⟩, ⟨0, none⟩⟩] :=
  C3_failed_claim_release 1
    (show hget [some (⟨none, ⟨2, 1⟩, ⟨0, none⟩⟩ : Node Nat)] 0
      = some ⟨none, ⟨2, 1⟩, ⟨0, none⟩⟩ from rfl)
    rfl (by decide)

/-- C4.  Tail-dummy invariant: in every state reachable from
construction by completed push and pop operations, the node named by
`tail` has `data = none`. -/
theorem C4_tail_dummy {T : Type} {s : QueueState T} (hr : Reachable s) :
    ∃ t ndt, s.tail.ptr = some t ∧ hget s.heap t = some ndt ∧
      ndt.data = none := by
  obtain ⟨vals, hinv⟩ := reachable_inv hr
  obtain ⟨hec, h, t, addrs, ndt, head_eq, tail_eq, hec_one, t_mem, t_data, _⟩ := hinv
  exact ⟨t, ndt, by rw [tail_eq], t_mem, t_data⟩

/-- Witness for C4 at the freshly constructed queue. -/
theorem C4_witness :
    ∃ t ndt, (lock_free_queue.init : QueueState Nat).tail.ptr = some t ∧
      hget (lock_free_queue.init : QueueState Nat).heap t = some ndt ∧
      ndt.data = none :=
  C4_tail_dummy Reachable.init

/-- C5.  One-element boundary: for every value `v`, on a fresh queue
after a single push of `v` the first pop returns `v` and the next pop
returns the empty sentinel. -/
theorem C5_one_element (T : Type) (v : T) :
    ∃ s₁ s₂ s₃, push (lock_free_queue.init : QueueState T) v = some s₁ ∧
      pop s₁ = some (some v, s₂) ∧ pop s₂ = some (none, s₃) := by
  obtain ⟨s₁, hp, hinv1, _, _⟩ := inv_push inv_init v
  obtain ⟨s₂, hq, hinv2, _, _⟩ :=
    inv_pop_cons (show Inv s₁ (v :: []) from by simpa using hinv1)
  obtain ⟨s₃, hr, _, _, _, _, _, _⟩ := inv_pop_nil hinv2
  exact ⟨s₁, s₂, s₃, hp, hq, hr⟩

/-- C6.  Empty observability: pop on a freshly constructed queue
returns the distinguishable no-value result, and the state is unchanged
apart from the claim counters: the tail slot is untouched, the head
slot still names the same node (only its external count grew), the
dummy node is still allocated with the same data and next fields (only
its internal count changed), and nothing was allocated or freed. -/
theorem C6_empty_observability (T : Type) :
    ∃ s', pop (lock_free_queue.init : QueueState T) = some (none, s') ∧
      s'.tail = (lock_free_queue.init : QueueState T).tail ∧
      s'.head.ptr = (lock_free_queue.init : QueueState T).head.ptr ∧
      (∀ a, (hget s'.heap a).map Node.data
          = (hget (lock_free_queue.init : QueueState T).heap a).map Node.data ∧
        (hget s'.heap a).map Node.next
          = (hget (lock_free_queue.init : QueueState T).heap a).map Node.next) ∧
      s'.heap.length = (lock_free_queue.init : QueueState T).heap.length := by
  obtain ⟨s', hp, _, hlen, _, htl, hhd, hfr⟩ :=
    inv_pop_nil (show Inv (lock_free_queue.init : QueueState T) [] from inv_init)
  exact ⟨s', hp, htl, hhd, hfr, hlen⟩

/-- C7.  Destructor drain: on a queue holding `n` values the
destructor's pop loop runs `n + 1` pops (the last returning empty),
leaving the queue empty, and then frees the one remaining node, which
is a dummy (`data = none`); in total exactly `n + 1` nodes are freed. -/
theorem C7_destructor_drain {T : Type} {s : QueueState T} {vals : List T}
    (hinv : Inv s vals) :
    ∃ s' f ndf, drain s (vals.length + 1) = some s' ∧ Inv s' [] ∧
      s'.head.ptr = some f ∧ hget s'.heap f = some ndf ∧ ndf.data = none ∧
      destruct s (vals.length + 1) = some (s'.heap.set f none) ∧
      allocCount (s'.heap.set f none) + (vals.length + 1)
        = allocCount s.heap := by
  obtain ⟨s', hd, hinv', hcnt⟩ := inv_drain hinv
  obtain ⟨hec, h, t, addrs, ndt, head_eq, tail_eq, hec_one, t_mem, t_data, t_next,
    t_count, nodup, front⟩ := hinv'
  have hht : h = t := by
    rcases front with ⟨e, _, _⟩ | ⟨b, nd, raddrs, rest, v, _, hv, _⟩
    · exact e
    · cases hv
  subst hht
  refine ⟨s', h, ndt, hd, ⟨hec, h, h, addrs, ndt, head_eq, tail_eq, hec_one,
    t_mem, t_data, t_next, t_count, nodup, front⟩, ?_, t_mem, t_data, ?_, ?_⟩
  · rw [head_eq]
  · simp only [destruct, hd, head_eq]
  · have := allocCount_set_none t_mem
    omega

/-- Witness for C7 on the freshly constructed (empty) queue. -/
theorem C7_witness :
    ∃ (s' : QueueState Nat) (f : Nat) (ndf : Node Nat),
      drain lock_free_queue.init (List.length ([] : List Nat) + 1) = some s' ∧
      Inv s' [] ∧ s'.head.ptr = some f ∧ hget s'.heap f = some ndf ∧
      ndf.data = none ∧
      destruct lock_free_queue.init (List.length ([] : List Nat) + 1)
        = some (s'.heap.set f none) ∧
      allocCount (s'.heap.set f none) + (List.length ([] : List Nat) + 1)
        = allocCount (lock_free_queue.init : QueueState Nat).heap :=
  C7_destructor_drain inv_init

/-- C8.  Allocation-failure atomicity of push: the value copy and the
successor dummy are both allocated before the first access to shared
state, so a failing allocation (either one) aborts the push with the
queue state completely unchanged; the successful path is `push`
itself. -/
theorem C8_alloc_failure_atomic (T : Type) (s : QueueState T) (v : T) (b : Bool) :
    pushE false b s v = Except.error s ∧
    pushE true false s v = Except.error s ∧
    push s v = (match pushE true true s v with
                | .ok r => r
                | .error _ => none) :=
  ⟨rfl, rfl, rfl⟩

/-- C10.  Modular counter arithmetic: the counter bit-fields wrap.
`UINT30` is `2 ^ 30`; `release_ref` applied to a node whose internal
count is 0 produces internal count `2 ^ 30 - 1` (and does not free);
and `free_external_counter` performs its addition of
`external_count - 2` modulo `2 ^ 30` (and decrements the holders count
modulo 4). -/
theorem C10_counter_wraparound {T : Type} {H : Heap T} {a : Nat} {nd : Node T}
    (hmem : hget H a = some nd) (h0 : nd.count.internal_count = 0) :
    (UINT30 : Nat) = 2 ^ 30 ∧
    release_ref H a = some (H.set a (some { nd with count :=
      ⟨2 ^ 30 - 1, nd.count.external_count⟩ })) ∧
    (∀ (H' : Heap T) (a' : Nat) (nd' : Node T) (ec : Int),
      hget H' a' = some nd' →
      ∃ i' : Nat, (i' : Int)
          = ((nd'.count.internal_count : Int) + (ec - 2)).emod ((2 : Int) ^ 30) ∧
        free_external_counter H' ⟨ec, some a'⟩ =
          some (if i' = 0 ∧ (nd'.count.external_count + 3) % 4 = 0
                then H'.set a' none
                else H'.set a' (some { nd' with count :=
                  ⟨i', (nd'.count.external_count + 3) % 4⟩ }))) := by
  refine ⟨by norm_num [UINT30], ?_, ?_⟩
  · have h1 : (nd.count.internal_count + (UINT30 - 1)) % UINT30 = 2 ^ 30 - 1 := by
      rw [h0]
      simp only [UINT30]
      norm_num
    simp only [release_ref, hmem, h1]
    rw [if_neg (by norm_num)]
  · intro H' a' nd' ec hmem'
    have hU : ((UINT30 : Nat) : Int) = (2 : Int) ^ 30 := by norm_num [UINT30]
    refine ⟨(((nd'.count.internal_count : Int) + (ec - 2)).emod ((2 : Int) ^ 30)).toNat,
      ?_, ?_⟩
    · exact Int.toNat_of_nonneg (Int.emod_nonneg _ (by norm_num))
    · simp only [free_external_counter, hmem', hU]
      by_cases hc : (((nd'.count.internal_count : Int) + (ec - 2)).emod
            ((2 : Int) ^ 30)).toNat = 0 ∧ (nd'.count.external_count + 3) % 4 = 0
      · rw [if_pos hc, if_pos hc]
      · rw [if_neg hc, if_neg hc]

/-- Witness for C10: releasing a reference on a node with internal
count 0 wraps the internal count to `2 ^ 30 - 1` without freeing. -/
theorem C10_witness :
    release_ref [some (⟨none, ⟨0, 2⟩, ⟨0, none⟩⟩ : Node Nat)] 0
      = some [some ⟨none, ⟨2 ^ 30 - 1, 2⟩, ⟨0, none⟩⟩] :=
  (C10_counter_wraparound
    (show hget [some (⟨none, ⟨0, 2⟩, ⟨0, none⟩⟩ : Node Nat)] 0
      = some ⟨none, ⟨0, 2⟩, ⟨0, none⟩⟩ from rfl) rfl).2.1

end LockFreeQueue
